import Mathlib

/-!
Verification of the MSCEqF pinhole-camera core (`include/msceqf/options/msceqf_options.hpp`,
here the embedded header also contains `camera.hpp`).

The header under `src/` declares the `PinholeCamera` base class, its `RadtanCamera` and
`EquidistantCamera` variants and the inline `createCamera` factory template.  The member
function bodies (`normalize`, `denormalize`, `undistort`, `setIntrinsics`, the
constructors) live in a translation unit that is not part of `src/`; those operations are
therefore modelled from the specification, as marked on each definition.  The factory
`createCamera` is definied inline in the header and is embedded from that source.

Floating-point scalars (`fp`, `float`) are modelled as real numbers.
-/

namespace MSCEqF

/-- The two concrete distortion model variants of the repository
(`RadtanCamera`, `EquidistantCamera` in camera.hpp). -/
inductive CameraKind
  | radtan
  | equidistant
deriving DecidableEq

/-- The 4-element intrinsics vector `(fx, fy, cx, cy)` (`Vector4` in the source). -/
structure Vector4 where
  fx : ℝ
  fy : ℝ
  cx : ℝ
  cy : ℝ

/-- State of a camera instance: the data members of `PinholeCamera`
(camera.hpp lines 225-228) together with the concrete variant tag that in C++ is
carried by the dynamic type of the object. -/
structure PinholeCamera where
  model : CameraKind
  distortion_coefficients_ : List ℝ
  intrinsics_ : Vector4
  width_ : ℕ
  height_ : ℕ

/-- Modelled from the spec: the per-camera configuration record (`CameraOptions`,
declared but not defined under `src/`): distortion coefficient list, intrinsics
vector, image width and image height. -/
structure CameraOptions where
  distortion_coefficients_ : List ℝ
  intrinsics_ : Vector4
  width_ : ℕ
  height_ : ℕ

/-- Coefficient access `coeffs[i]`, reading 0 for an absent (optional) coefficient. -/
def listK (c : List ℝ) (i : ℕ) : ℝ := c.getD i 0

/-- Modelled from the spec: `PinholeCamera::normalize` (body not under `src/`):
`p' = ((p.x - cx)/fx, (p.y - cy)/fy)`, a pure function of the intrinsics alone. -/
noncomputable def normalizePt (intr : Vector4) (p : ℝ × ℝ) : ℝ × ℝ :=
  ((p.1 - intr.cx) / intr.fx, (p.2 - intr.cy) / intr.fy)

/-- Modelled from the spec: `PinholeCamera::denormalize` (body not under `src/`):
the inverse affine map `p' = (p.x*fx + cx, p.y*fy + cy)`. -/
def denormalizePt (intr : Vector4) (p : ℝ × ℝ) : ℝ × ℝ :=
  (p.1 * intr.fx + intr.cx, p.2 * intr.fy + intr.cy)

/-- Camera-level single-point normalization: reads only the instance's intrinsics,
never the distortion coefficients or the variant tag. -/
noncomputable def cameraNormalizePt (cam : PinholeCamera) (p : ℝ × ℝ) : ℝ × ℝ :=
  normalizePt cam.intrinsics_ p

/-- Camera-level single-point denormalization: reads only the instance's intrinsics. -/
def cameraDenormalizePt (cam : PinholeCamera) (p : ℝ × ℝ) : ℝ × ℝ :=
  denormalizePt cam.intrinsics_ p

/-- Modelled from the spec: the Radtan radial-tangential forward distortion model
(the body of `RadtanCamera::undistort` is not under `src/`), on normalized
coordinates, with coefficients `(k1, k2, p1, p2[, k3])`:
`x_d = x(1 + k1 r2 + k2 r2^2 [+ k3 r2^3]) + 2 p1 x y + p2(r2 + 2x^2)`,
`y_d = y(1 + k1 r2 + k2 r2^2 [+ k3 r2^3]) + p1(r2 + 2y^2) + 2 p2 x y`,
with `r2 = x^2 + y^2`; an absent optional `k3` reads as 0. -/
def radtanForward (c : List ℝ) (p : ℝ × ℝ) : ℝ × ℝ :=
  let x := p.1
  let y := p.2
  let r2 := x ^ 2 + y ^ 2
  let radial := 1 + listK c 0 * r2 + listK c 1 * r2 ^ 2 + listK c 4 * r2 ^ 3
  (x * radial + 2 * listK c 2 * x * y + listK c 3 * (r2 + 2 * x ^ 2),
   y * radial + listK c 2 * (r2 + 2 * y ^ 2) + 2 * listK c 3 * x * y)

/-- Sup-distance between two planar points, the measure of the residual
forward-distortion error of an iterate. -/
noncomputable def ptDist (a b : ℝ × ℝ) : ℝ := max |a.1 - b.1| |a.2 - b.2|

/-- Euclidean radius of a planar point. -/
noncomputable def ptNorm (p : ℝ × ℝ) : ℝ := Real.sqrt (p.1 ^ 2 + p.2 ^ 2)

/-- Modelled from the spec: one fixed-point step of the iterative Radtan
undistortion solver, `p' = p + (d - forward(p))`, so that fixed points are
exactly the solutions of `forward(p) = d`. -/
def radtanStep (c : List ℝ) (d p : ℝ × ℝ) : ℝ × ℝ :=
  (p.1 + (d.1 - (radtanForward c p).1), p.2 + (d.2 - (radtanForward c p).2))

/-- Residual forward-distortion error of an iterate `p` against the distorted
target `d`. -/
noncomputable def radtanResid (c : List ℝ) (d p : ℝ × ℝ) : ℝ :=
  ptDist (radtanForward c p) d

/-- Modelled from the spec: the iterative Radtan undistortion solver (body of
`RadtanCamera::undistort` not under `src/`): starting from the distorted point as
initial guess, iterate until the residual forward-distortion error falls below the
tolerance or the iteration budget is spent; the last iterate is returned in either
case, so non-convergence is not fatal. -/
noncomputable def radtanSolve (c : List ℝ) (tol : ℝ) (d : ℝ × ℝ) : ℕ → (ℝ × ℝ) → ℝ × ℝ
  | 0, p => p
  | fuel + 1, p =>
      if radtanResid c d p ≤ tol then p
      else radtanSolve c tol d fuel (radtanStep c d p)

/-- Modelled from the spec: the Equidistant angular polynomial factor
`1 + k1 θ^2 + k2 θ^4 + k3 θ^6 + k4 θ^8`. -/
def equidistantPolyFactor (c : List ℝ) (θ : ℝ) : ℝ :=
  1 + listK c 0 * θ ^ 2 + listK c 1 * θ ^ 4 + listK c 2 * θ ^ 6 + listK c 3 * θ ^ 8

/-- Modelled from the spec: the Equidistant forward angular model
`θ_d = θ(1 + k1 θ^2 + k2 θ^4 + k3 θ^6 + k4 θ^8)`. -/
def equidistantTheta (c : List ℝ) (θ : ℝ) : ℝ := θ * equidistantPolyFactor c θ

/-- Modelled from the spec: the Equidistant forward distortion model (body of
`EquidistantCamera::undistort` not under `src/`): with `r` the normalized radius
and `θ = atan(r)`, the distorted point is the normalized point rescaled so that
its radius becomes `θ_d = equidistantTheta θ`; hence the distorted radius equals
`θ_d`, as required by the spec's undistortion description, which recovers `θ`
from `θ_d` alone. -/
noncomputable def equidistantForward (c : List ℝ) (p : ℝ × ℝ) : ℝ × ℝ :=
  let r := ptNorm p
  let s := equidistantTheta c (Real.arctan r) / r
  (s * p.1, s * p.2)

/-- Modelled from the spec: one step of the Equidistant root-finder for
`θ_d = θ (1 + k1 θ^2 + ...)`, the standard fixed-point update
`θ' = θ_d / (1 + k1 θ^2 + ...)`. -/
noncomputable def thetaStep (c : List ℝ) (θd θ : ℝ) : ℝ := θd / equidistantPolyFactor c θ

/-- Modelled from the spec: the iterative Equidistant angle solver (body of
`EquidistantCamera::undistort` not under `src/`): iterate from `θ_d` until the
angular residual falls below the tolerance or the budget is spent; the last
iterate is returned in either case. -/
noncomputable def thetaSolve (c : List ℝ) (tol θd : ℝ) : ℕ → ℝ → ℝ
  | 0, θ => θ
  | fuel + 1, θ =>
      if |equidistantTheta c θ - θd| ≤ tol then θ
      else thetaSolve c tol θd fuel (thetaStep c θd θ)

/-- Modelled from the spec: Equidistant undistortion of a normalized (distorted)
point: read `θ_d` off as the distorted radius, solve for `θ`, and rescale the
point so its radius becomes `tan θ`. -/
noncomputable def equidistantUndistortN (c : List ℝ) (tol : ℝ) (fuel : ℕ) (d : ℝ × ℝ) : ℝ × ℝ :=
  let θd := ptNorm d
  let s := Real.tan (thetaSolve c tol θd fuel θd) / θd
  (s * d.1, s * d.2)

/-- The variant's forward distortion function on normalized coordinates. -/
noncomputable def forwardDistort : CameraKind → List ℝ → ℝ × ℝ → ℝ × ℝ
  | CameraKind.radtan, c, p => radtanForward c p
  | CameraKind.equidistant, c, p => equidistantForward c p

/-- Modelled from the spec: the variant's undistortion of a normalized distorted
point (the model-specific core of the two `undistort` overrides, whose bodies are
not under `src/`). -/
noncomputable def undistortNormalized (k : CameraKind) (c : List ℝ) (tol : ℝ) (fuel : ℕ)
    (d : ℝ × ℝ) : ℝ × ℝ :=
  match k with
  | CameraKind.radtan => radtanSolve c tol d fuel d
  | CameraKind.equidistant => equidistantUndistortN c tol fuel d

/-- The iterative solver's convergence criterion fires within the iteration
budget on the distorted input `d`; for the Equidistant root-finder the returned
root additionally lies in the bounded domain `[0, pi/2)` over which the spec
sets up the monotone root-finder. -/
noncomputable def SolverConverged (k : CameraKind) (c : List ℝ) (tol : ℝ) (fuel : ℕ)
    (d : ℝ × ℝ) : Prop :=
  match k with
  | CameraKind.radtan => ∃ i < fuel, radtanResid c d ((radtanStep c d)^[i] d) ≤ tol
  | CameraKind.equidistant =>
      (∃ i < fuel,
          |equidistantTheta c ((thetaStep c (ptNorm d))^[i] (ptNorm d)) - ptNorm d| ≤ tol)
        ∧ thetaSolve c tol (ptNorm d) fuel (ptNorm d) ∈ Set.Ico 0 (Real.pi / 2)

/-- The convergence criterion never fires within the iteration budget on the
distorted input `d`. -/
noncomputable def NotConverged (k : CameraKind) (c : List ℝ) (tol : ℝ) (fuel : ℕ)
    (d : ℝ × ℝ) : Prop :=
  match k with
  | CameraKind.radtan => ∀ i < fuel, ¬ radtanResid c d ((radtanStep c d)^[i] d) ≤ tol
  | CameraKind.equidistant => ∀ i < fuel,
      ¬ |equidistantTheta c ((thetaStep c (ptNorm d))^[i] (ptNorm d)) - ptNorm d| ≤ tol

/-- The best-effort result after exhausting the whole iteration budget: the last
iterate of the variant's solver (independent of the tolerance). -/
noncomputable def lastIterateResult (k : CameraKind) (c : List ℝ) (fuel : ℕ)
    (d : ℝ × ℝ) : ℝ × ℝ :=
  match k with
  | CameraKind.radtan => (radtanStep c d)^[fuel] d
  | CameraKind.equidistant =>
      let θd := ptNorm d
      let s := Real.tan ((thetaStep c θd)^[fuel] θd) / θd
      (s * d.1, s * d.2)

/-- Modelled from the spec: single-point pixel-space undistortion (the pointwise
core of the `undistort` overrides, bodies not under `src/`): normalize the
distorted pixel, solve the variant's inverse distortion on normalized
coordinates, and denormalize back to pixel space. -/
noncomputable def pixelUndistortPt (cam : PinholeCamera) (tol : ℝ) (fuel : ℕ)
    (p : ℝ × ℝ) : ℝ × ℝ :=
  denormalizePt cam.intrinsics_
    (undistortNormalized cam.model cam.distortion_coefficients_ tol fuel
      (normalizePt cam.intrinsics_ p))

/-- Modelled from the spec: the batch `undistort(uv_cv, normalize)` entry point in
the image-point representation (`PinholeCamera::undistort(std::vector of cv::Point2f)`,
bodies not under `src/`): undistort every point of the batch; with
`normalize = true`, undistort then normalize. -/
noncomputable def undistortCv (cam : PinholeCamera) (tol : ℝ) (fuel : ℕ)
    (uv : List (ℝ × ℝ)) (flag : Bool) : List (ℝ × ℝ) :=
  let res := uv.map (pixelUndistortPt cam tol fuel)
  if flag then res.map (normalizePt cam.intrinsics_) else res

/-- The Eigen 2-vector point representation (`Eigen::Vector2f`), functionally a
pair of scalars stored differently from the image-library point. -/
structure EigenVector2 where
  x : ℝ
  y : ℝ

/-- Conversion from the Eigen representation to the image-point representation. -/
def eigenToCv (p : EigenVector2) : ℝ × ℝ := (p.x, p.y)

/-- Conversion from the image-point representation to the Eigen representation. -/
def cvToEigen (p : ℝ × ℝ) : EigenVector2 := ⟨p.1, p.2⟩

/-- Modelled from the spec: the Eigen-representation `undistort` overload
(`PinholeCamera::undistort(std::vector of Eigen::Vector2f)`, body not under
`src/`): convert to the image-point representation, delegate to the virtual
implementation, convert back. -/
noncomputable def undistortEigen (cam : PinholeCamera) (tol : ℝ) (fuel : ℕ)
    (uv : List EigenVector2) (flag : Bool) : List EigenVector2 :=
  (undistortCv cam tol fuel (uv.map eigenToCv) flag).map cvToEigen

/-- Modelled from the spec: `PinholeCamera::setIntrinsics` (body not under
`src/`): replace the stored 4-element intrinsics vector. -/
def setIntrinsics (cam : PinholeCamera) (v : Vector4) : PinholeCamera :=
  { cam with intrinsics_ := v }

/-- The operations of the camera interface, as far as they touch the instance:
only `setIntrinsics` writes; `normalize`, `denormalize`, `undistort` and
`undistortImage` write their point/image argument, never the camera state. -/
inductive CameraOp
  | opSetIntrinsics (v : Vector4)
  | opNormalize (uv : List (ℝ × ℝ))
  | opDenormalize (uv : List (ℝ × ℝ))
  | opUndistort (uv : List (ℝ × ℝ)) (flag : Bool)
  | opUndistortImage

/-- Modelled from the spec: the effect of each interface operation on the camera
instance's state (only intrinsics are mutable after construction). -/
def applyOp (op : CameraOp) (cam : PinholeCamera) : PinholeCamera :=
  match op with
  | CameraOp.opSetIntrinsics v => setIntrinsics cam v
  | _ => cam

/-- The class types of the repository at which the `createCamera` template can be
mentioned: the camera hierarchy of camera.hpp plus representative non-camera
types (an options record, a machine integer). -/
inductive CppType
  | pinholeCameraT
  | radtanCameraT
  | equidistantCameraT
  | msceqfOptionsT
  | intT
deriving DecidableEq

/-- `std::is_base_of_v<PinholeCamera, T>` for each modelled type:
`RadtanCamera` and `EquidistantCamera` derive from `PinholeCamera`
(camera.hpp lines 235, 256), a class is a base of itself, and the
non-camera types are unrelated. -/
def derivesFromPinholeCamera : CppType → Bool
  | CppType.pinholeCameraT => true
  | CppType.radtanCameraT => true
  | CppType.equidistantCameraT => true
  | CppType.msceqfOptionsT => false
  | CppType.intT => false

/-- `T` has a usable `(CameraOptions, Vector4)` constructor, so that
`std::make_unique<T>(opts, intrinsics)` compiles: true exactly for the two
concrete variants; `PinholeCamera` is abstract with a protected constructor. -/
def constructibleCamera : CppType → Bool
  | CppType.radtanCameraT => true
  | CppType.equidistantCameraT => true
  | _ => false

/-- `createCamera<T>` instantiates (compiles): the `if constexpr` true branch
requires `std::make_unique<T>(opts, intrinsics)` to compile whenever the
inheritance test holds; the false branch always compiles. -/
def createCameraInstantiates (t : CppType) : Bool :=
  !derivesFromPinholeCamera t || constructibleCamera t

/-- Modelled from the spec: the `RadtanCamera(opts, intrinsics)` constructor
(body not under `src/`): a Radtan instance owning the options' distortion
coefficients and image size and the given intrinsics. -/
def mkRadtanCamera (opts : CameraOptions) (intr : Vector4) : PinholeCamera :=
  ⟨CameraKind.radtan, opts.distortion_coefficients_, intr, opts.width_, opts.height_⟩

/-- Modelled from the spec: the `EquidistantCamera(opts, intrinsics)` constructor
(body not under `src/`). -/
def mkEquidistantCamera (opts : CameraOptions) (intr : Vector4) : PinholeCamera :=
  ⟨CameraKind.equidistant, opts.distortion_coefficients_, intr, opts.width_, opts.height_⟩

/-- The object `std::make_unique<T>(opts, intrinsics)` builds, for the types at
which it compiles. -/
def cppConstruct : CppType → CameraOptions → Vector4 → Option PinholeCamera
  | CppType.radtanCameraT, opts, intr => some (mkRadtanCamera opts intr)
  | CppType.equidistantCameraT, opts, intr => some (mkEquidistantCamera opts intr)
  | _, _, _ => none

/-- The `createCamera<T>(opts, intrinsics)` factory, camera.hpp lines 292-303:
`if constexpr (std::is_base_of_v<PinholeCamera, T>) return
std::make_unique<T>(opts, intrinsics); else return nullptr;`. -/
def createCamera (t : CppType) (opts : CameraOptions) (intr : Vector4) :
    Option PinholeCamera :=
  if derivesFromPinholeCamera t then cppConstruct t opts intr else none

/-- The model variant denoted by each camera class type. -/
def modelOfCppType : CppType → Option CameraKind
  | CppType.radtanCameraT => some CameraKind.radtan
  | CppType.equidistantCameraT => some CameraKind.equidistant
  | _ => none

/-- C1: for every camera instance (any distortion model) whose intrinsics satisfy
`fx > 0` and `fy > 0`, and every pixel point `p`, `denormalize (normalize p) = p`.
In the real-number model of the floating-point scalars the round trip is exact. -/
theorem c1_normalize_denormalize_roundtrip (cam : PinholeCamera) (p : ℝ × ℝ)
    (hfx : 0 < cam.intrinsics_.fx) (hfy : 0 < cam.intrinsics_.fy) :
    cameraDenormalizePt cam (cameraNormalizePt cam p) = p := by
  have hfx0 : cam.intrinsics_.fx ≠ 0 := ne_of_gt hfx
  have hfy0 : cam.intrinsics_.fy ≠ 0 := ne_of_gt hfy
  unfold cameraDenormalizePt cameraNormalizePt denormalizePt normalizePt
  have h1 : (p.1 - cam.intrinsics_.cx) / cam.intrinsics_.fx * cam.intrinsics_.fx
      + cam.intrinsics_.cx = p.1 := by
    field_simp
  have h2 : (p.2 - cam.intrinsics_.cy) / cam.intrinsics_.fy * cam.intrinsics_.fy
      + cam.intrinsics_.cy = p.2 := by
    field_simp
  exact Prod.ext h1 h2

/-- Witness for C1 at the spec's concrete scenario:
intrinsics `(500, 500, 320, 240)`, pixel `(420, 240)`, on a Radtan instance. -/
theorem c1_normalize_denormalize_roundtrip_witness :
    (0:ℝ) < 500 ∧
      cameraDenormalizePt ⟨CameraKind.radtan, [], ⟨500, 500, 320, 240⟩, 640, 480⟩
        (cameraNormalizePt ⟨CameraKind.radtan, [], ⟨500, 500, 320, 240⟩, 640, 480⟩
          ((420:ℝ), (240:ℝ))) = ((420:ℝ), (240:ℝ)) :=
  ⟨by norm_num,
    c1_normalize_denormalize_roundtrip
      ⟨CameraKind.radtan, [], ⟨500, 500, 320, 240⟩, 640, 480⟩ ((420:ℝ), (240:ℝ))
      (by norm_num) (by norm_num)⟩

/-- C2: on every camera instance, `normalize` computes `((x-cx)/fx, (y-cy)/fy)` and
`denormalize` computes `(x*fx+cx, y*fy+cy)` exactly (no iteration), and two instances
that share intrinsics — whatever their distortion coefficients or model variant —
normalize and denormalize identically. -/
theorem c2_normalize_denormalize_formulas (cam : PinholeCamera) (p : ℝ × ℝ) :
    cameraNormalizePt cam p
        = ((p.1 - cam.intrinsics_.cx) / cam.intrinsics_.fx,
           (p.2 - cam.intrinsics_.cy) / cam.intrinsics_.fy)
      ∧ cameraDenormalizePt cam p
        = (p.1 * cam.intrinsics_.fx + cam.intrinsics_.cx,
           p.2 * cam.intrinsics_.fy + cam.intrinsics_.cy)
      ∧ ∀ cam2 : PinholeCamera, cam.intrinsics_ = cam2.intrinsics_ →
          cameraNormalizePt cam p = cameraNormalizePt cam2 p
            ∧ cameraDenormalizePt cam p = cameraDenormalizePt cam2 p := by
  refine ⟨rfl, rfl, ?_⟩
  intro cam2 h
  unfold cameraNormalizePt cameraDenormalizePt
  rw [h]
  exact ⟨rfl, rfl⟩

/-- Witness for C2: two instances with the same intrinsics but different variants and
coefficients normalize and denormalize the pixel `(420, 240)` identically. -/
theorem c2_normalize_denormalize_formulas_witness :
    (⟨CameraKind.radtan, [1, 2], ⟨500, 500, 320, 240⟩, 640, 480⟩ : PinholeCamera).intrinsics_
        = (⟨CameraKind.equidistant, [], ⟨500, 500, 320, 240⟩, 640, 480⟩ : PinholeCamera).intrinsics_
      ∧ cameraNormalizePt ⟨CameraKind.radtan, [1, 2], ⟨500, 500, 320, 240⟩, 640, 480⟩
          ((420:ℝ), (240:ℝ))
        = cameraNormalizePt ⟨CameraKind.equidistant, [], ⟨500, 500, 320, 240⟩, 640, 480⟩
          ((420:ℝ), (240:ℝ)) := by
  have h := c2_normalize_denormalize_formulas
    ⟨CameraKind.radtan, [1, 2], ⟨500, 500, 320, 240⟩, 640, 480⟩ ((420:ℝ), (240:ℝ))
  exact ⟨rfl, (h.2.2 ⟨CameraKind.equidistant, [], ⟨500, 500, 320, 240⟩, 640, 480⟩ rfl).1⟩

/-- If the Radtan convergence criterion fires within the budget, the solver
returns an iterate meeting the criterion. -/
theorem radtanSolve_of_converged (c : List ℝ) (tol : ℝ) (d : ℝ × ℝ) :
    ∀ (fuel : ℕ) (p : ℝ × ℝ),
      (∃ i < fuel, radtanResid c d ((radtanStep c d)^[i] p) ≤ tol) →
      radtanResid c d (radtanSolve c tol d fuel p) ≤ tol := by
  intro fuel
  induction fuel with
  | zero =>
    intro p h
    obtain ⟨i, hi, _⟩ := h
    exact absurd hi (Nat.not_lt_zero i)
  | succ n ih =>
    intro p h
    by_cases hc : radtanResid c d p ≤ tol
    · rw [show radtanSolve c tol d (n + 1) p = p by simp [radtanSolve, hc]]
      exact hc
    · rw [show radtanSolve c tol d (n + 1) p
          = radtanSolve c tol d n (radtanStep c d p) by simp [radtanSolve, hc]]
      apply ih
      obtain ⟨i, hi, hres⟩ := h
      cases i with
      | zero =>
        rw [Function.iterate_zero_apply] at hres
        exact absurd hres hc
      | succ j =>
        refine ⟨j, by omega, ?_⟩
        rwa [Function.iterate_succ_apply] at hres

/-- If the Radtan convergence criterion never fires within the budget, the solver
returns the final iterate of the full budget. -/
theorem radtanSolve_of_stuck (c : List ℝ) (tol : ℝ) (d : ℝ × ℝ) :
    ∀ (fuel : ℕ) (p : ℝ × ℝ),
      (∀ i < fuel, ¬ radtanResid c d ((radtanStep c d)^[i] p) ≤ tol) →
      radtanSolve c tol d fuel p = (radtanStep c d)^[fuel] p := by
  intro fuel
  induction fuel with
  | zero =>
    intro p _
    simp [radtanSolve]
  | succ n ih =>
    intro p h
    have h0 : ¬ radtanResid c d p ≤ tol := by
      have := h 0 (Nat.succ_pos n)
      rwa [Function.iterate_zero_apply] at this
    rw [show radtanSolve c tol d (n + 1) p
        = radtanSolve c tol d n (radtanStep c d p) by simp [radtanSolve, h0]]
    rw [ih (radtanStep c d p) fun i hi => by
      have := h (i + 1) (by omega)
      rwa [Function.iterate_succ_apply] at this]
    rw [Function.iterate_succ_apply]

/-- If the Equidistant angular convergence criterion fires within the budget, the
angle solver returns an iterate meeting the criterion. -/
theorem thetaSolve_of_converged (c : List ℝ) (tol θd : ℝ) :
    ∀ (fuel : ℕ) (θ : ℝ),
      (∃ i < fuel, |equidistantTheta c ((thetaStep c θd)^[i] θ) - θd| ≤ tol) →
      |equidistantTheta c (thetaSolve c tol θd fuel θ) - θd| ≤ tol := by
  intro fuel
  induction fuel with
  | zero =>
    intro θ h
    obtain ⟨i, hi, _⟩ := h
    exact absurd hi (Nat.not_lt_zero i)
  | succ n ih =>
    intro θ h
    by_cases hc : |equidistantTheta c θ - θd| ≤ tol
    · rw [show thetaSolve c tol θd (n + 1) θ = θ by simp [thetaSolve, hc]]
      exact hc
    · rw [show thetaSolve c tol θd (n + 1) θ
          = thetaSolve c tol θd n (thetaStep c θd θ) by simp [thetaSolve, hc]]
      apply ih
      obtain ⟨i, hi, hres⟩ := h
      cases i with
      | zero =>
        rw [Function.iterate_zero_apply] at hres
        exact absurd hres hc
      | succ j =>
        refine ⟨j, by omega, ?_⟩
        rwa [Function.iterate_succ_apply] at hres

/-- If the Equidistant angular convergence criterion never fires within the
budget, the angle solver returns the final iterate of the full budget. -/
theorem thetaSolve_of_stuck (c : List ℝ) (tol θd : ℝ) :
    ∀ (fuel : ℕ) (θ : ℝ),
      (∀ i < fuel, ¬ |equidistantTheta c ((thetaStep c θd)^[i] θ) - θd| ≤ tol) →
      thetaSolve c tol θd fuel θ = (thetaStep c θd)^[fuel] θ := by
  intro fuel
  induction fuel with
  | zero =>
    intro θ _
    simp [thetaSolve]
  | succ n ih =>
    intro θ h
    have h0 : ¬ |equidistantTheta c θ - θd| ≤ tol := by
      have := h 0 (Nat.succ_pos n)
      rwa [Function.iterate_zero_apply] at this
    rw [show thetaSolve c tol θd (n + 1) θ
        = thetaSolve c tol θd n (thetaStep c θd θ) by simp [thetaSolve, h0]]
    rw [ih (thetaStep c θd θ) fun i hi => by
      have := h (i + 1) (by omega)
      rwa [Function.iterate_succ_apply] at this]
    rw [Function.iterate_succ_apply]

/-- The Euclidean radius is nonnegative. -/
theorem ptNorm_nonneg (p : ℝ × ℝ) : 0 ≤ ptNorm p := Real.sqrt_nonneg _

/-- Each coordinate is bounded in magnitude by the Euclidean radius. -/
theorem abs_fst_le_ptNorm (p : ℝ × ℝ) : |p.1| ≤ ptNorm p := by
  rw [← Real.sqrt_sq_eq_abs]
  exact Real.sqrt_le_sqrt (by nlinarith [sq_nonneg p.2])

/-- Each coordinate is bounded in magnitude by the Euclidean radius. -/
theorem abs_snd_le_ptNorm (p : ℝ × ℝ) : |p.2| ≤ ptNorm p := by
  rw [← Real.sqrt_sq_eq_abs]
  exact Real.sqrt_le_sqrt (by nlinarith [sq_nonneg p.1])

/-- A point of zero Euclidean radius is the origin. -/
theorem ptNorm_eq_zero (p : ℝ × ℝ) (h : ptNorm p = 0) : p.1 = 0 ∧ p.2 = 0 := by
  unfold ptNorm at h
  rw [Real.sqrt_eq_zero (by positivity)] at h
  constructor <;> nlinarith [sq_nonneg p.1, sq_nonneg p.2]

/-- Rescaling a point rescales its Euclidean radius. -/
theorem ptNorm_smul (a : ℝ) (p : ℝ × ℝ) :
    ptNorm (a * p.1, a * p.2) = |a| * ptNorm p := by
  unfold ptNorm
  rw [show (a * p.1) ^ 2 + (a * p.2) ^ 2 = a ^ 2 * (p.1 ^ 2 + p.2 ^ 2) by ring,
    Real.sqrt_mul (sq_nonneg a), Real.sqrt_sq_eq_abs]

/-- The Equidistant forward model fixes the origin. -/
theorem equidistantForward_zero (c : List ℝ) :
    equidistantForward c ((0:ℝ), (0:ℝ)) = (0, 0) := by
  simp [equidistantForward, ptNorm, Real.sqrt_zero, Real.arctan_zero]

/-- Scaling error bound: if the angular residual is within tolerance, rescaling a
coordinate bounded by the radius keeps the error within tolerance. -/
theorem ratio_err_bound (T θd z tol : ℝ) (hθd : 0 < θd) (hz : |z| ≤ θd)
    (h : |T - θd| ≤ tol) : |T / θd * z - z| ≤ tol := by
  have h1 : T / θd * z - z = (T - θd) * z / θd := by
    field_simp
    ring
  rw [h1, abs_div, abs_mul, abs_of_pos hθd]
  calc |T - θd| * |z| / θd ≤ |T - θd| * θd / θd := by gcongr
    _ = |T - θd| := by field_simp
    _ ≤ tol := h

/-- The Equidistant distortion round trip: if the angle solver's result meets the
convergence criterion and lies in the root-finder's bounded domain, re-distorting
the undistorted point reproduces the distorted input within tolerance. -/
theorem equidistant_roundtrip (c : List ℝ) (tol : ℝ) (fuel : ℕ) (d : ℝ × ℝ)
    (htol : 0 ≤ tol)
    (hres : |equidistantTheta c (thetaSolve c tol (ptNorm d) fuel (ptNorm d)) - ptNorm d| ≤ tol)
    (hdom : thetaSolve c tol (ptNorm d) fuel (ptNorm d) ∈ Set.Ico 0 (Real.pi / 2)) :
    ptDist (equidistantForward c (equidistantUndistortN c tol fuel d)) d ≤ tol := by
  obtain ⟨hθ0, hθlt⟩ := hdom
  have hund : equidistantUndistortN c tol fuel d
      = ((Real.tan (thetaSolve c tol (ptNorm d) fuel (ptNorm d)) / ptNorm d) * d.1,
         (Real.tan (thetaSolve c tol (ptNorm d) fuel (ptNorm d)) / ptNorm d) * d.2) := rfl
  by_cases hd0 : ptNorm d = 0
  · obtain ⟨h1, h2⟩ := ptNorm_eq_zero d hd0
    rw [hund, h1, h2, mul_zero, equidistantForward_zero]
    simp only [ptDist, h1, h2]
    simp [htol]
  · have hθdpos : 0 < ptNorm d := (ptNorm_nonneg d).lt_of_ne (Ne.symm hd0)
    rcases eq_or_lt_of_le hθ0 with hθz | hθpos
    · -- the solved angle is zero: the undistorted point is the origin
      rw [hund, ← hθz, Real.tan_zero, zero_div, zero_mul, zero_mul,
        equidistantForward_zero]
      have hθd_le : ptNorm d ≤ tol := by
        rw [← hθz] at hres
        rw [show equidistantTheta c 0 = 0 by simp [equidistantTheta]] at hres
        rwa [zero_sub, abs_neg, abs_of_nonneg (ptNorm_nonneg d)] at hres
      have hb : ptDist ((0:ℝ), (0:ℝ)) d ≤ ptNorm d := by
        simp only [ptDist]
        refine max_le ?_ ?_
        · rw [zero_sub, abs_neg]; exact abs_fst_le_ptNorm d
        · rw [zero_sub, abs_neg]; exact abs_snd_le_ptNorm d
      exact le_trans hb hθd_le
    · -- the solved angle is positive: tan is positive and arctan inverts it
      have htan : 0 < Real.tan (thetaSolve c tol (ptNorm d) fuel (ptNorm d)) :=
        Real.tan_pos_of_pos_of_lt_pi_div_two hθpos hθlt
      have hs : 0 < Real.tan (thetaSolve c tol (ptNorm d) fuel (ptNorm d)) / ptNorm d :=
        div_pos htan hθdpos
      have hnorm_u : ptNorm (equidistantUndistortN c tol fuel d)
          = Real.tan (thetaSolve c tol (ptNorm d) fuel (ptNorm d)) := by
        rw [hund, ptNorm_smul, abs_of_pos hs, div_mul_cancel₀ _ hd0]
      have harc : Real.arctan (ptNorm (equidistantUndistortN c tol fuel d))
          = thetaSolve c tol (ptNorm d) fuel (ptNorm d) := by
        rw [hnorm_u]
        exact Real.arctan_tan
          (lt_trans (neg_lt_zero.mpr Real.pi_div_two_pos) hθpos) hθlt
      have hfwd : equidistantForward c (equidistantUndistortN c tol fuel d)
          = ((equidistantTheta c (thetaSolve c tol (ptNorm d) fuel (ptNorm d)) / ptNorm d) * d.1,
             (equidistantTheta c (thetaSolve c tol (ptNorm d) fuel (ptNorm d)) / ptNorm d) * d.2) := by
        show ((equidistantTheta c (Real.arctan (ptNorm (equidistantUndistortN c tol fuel d)))
            / ptNorm (equidistantUndistortN c tol fuel d))
              * (equidistantUndistortN c tol fuel d).1, _) = _
        rw [harc, hnorm_u, hund]
        have hcomp : ∀ z : ℝ,
            equidistantTheta c (thetaSolve c tol (ptNorm d) fuel (ptNorm d))
                / Real.tan (thetaSolve c tol (ptNorm d) fuel (ptNorm d))
                * (Real.tan (thetaSolve c tol (ptNorm d) fuel (ptNorm d)) / ptNorm d * z)
              = equidistantTheta c (thetaSolve c tol (ptNorm d) fuel (ptNorm d))
                / ptNorm d * z := by
          intro z
          rw [← mul_assoc, div_mul_div_comm,
            mul_comm (equidistantTheta c (thetaSolve c tol (ptNorm d) fuel (ptNorm d)))
              (Real.tan (thetaSolve c tol (ptNorm d) fuel (ptNorm d))),
            mul_div_mul_left _ _ (ne_of_gt htan)]
        exact Prod.ext (hcomp d.1) (hcomp d.2)
      rw [hfwd]
      simp only [ptDist]
      exact max_le
        (ratio_err_bound _ _ _ _ hθdpos (abs_fst_le_ptNorm d) hres)
        (ratio_err_bound _ _ _ _ hθdpos (abs_snd_le_ptNorm d) hres)

/-- C4: for both variants, whenever the iterative solver's convergence criterion
is met on the distorted input `forwardDistort p` (the spec's acceptance test,
its formalization of "physically plausible coefficients and points within the
calibrated field of view"), re-applying the variant's forward distortion to the
undistorted result reproduces the distorted input within the solver tolerance:
`forwardDistort (undistort (forwardDistort p))` is within `tol` of
`forwardDistort p`. -/
theorem c4_distortion_roundtrip (k : CameraKind) (c : List ℝ) (tol : ℝ) (fuel : ℕ)
    (p : ℝ × ℝ) (htol : 0 ≤ tol)
    (hconv : SolverConverged k c tol fuel (forwardDistort k c p)) :
    ptDist
        (forwardDistort k c
          (undistortNormalized k c tol fuel (forwardDistort k c p)))
        (forwardDistort k c p) ≤ tol := by
  cases k with
  | radtan =>
    exact radtanSolve_of_converged c tol (radtanForward c p) fuel
      (radtanForward c p) hconv
  | equidistant =>
    obtain ⟨hex, hdom⟩ := hconv
    exact equidistant_roundtrip c tol fuel (equidistantForward c p) htol
      (thetaSolve_of_converged c tol (ptNorm (equidistantForward c p)) fuel
        (ptNorm (equidistantForward c p)) hex) hdom

/-- Witness for C4: Radtan with all coefficients absent (zero), tolerance 1,
budget 1, at the origin, where the solver converges at once. -/
theorem c4_distortion_roundtrip_witness :
    (0:ℝ) ≤ 1
      ∧ SolverConverged CameraKind.radtan [] 1 1
          (forwardDistort CameraKind.radtan [] ((0:ℝ), (0:ℝ)))
      ∧ ptDist
          (forwardDistort CameraKind.radtan []
            (undistortNormalized CameraKind.radtan [] 1 1
              (forwardDistort CameraKind.radtan [] ((0:ℝ), (0:ℝ)))))
          (forwardDistort CameraKind.radtan [] ((0:ℝ), (0:ℝ))) ≤ 1 := by
  have hconv : SolverConverged CameraKind.radtan [] 1 1
      (forwardDistort CameraKind.radtan [] ((0:ℝ), (0:ℝ))) := by
    refine ⟨0, Nat.zero_lt_one, ?_⟩
    norm_num [radtanResid, radtanForward, ptDist, listK, forwardDistort,
      Function.iterate_zero]
  exact ⟨by norm_num, hconv,
    c4_distortion_roundtrip CameraKind.radtan [] 1 1 ((0:ℝ), (0:ℝ)) (by norm_num) hconv⟩

/-- C6: if the convergence criterion never fires within the iteration budget, the
undistortion returns the final (best-effort) iterate of the full budget rather
than failing; in this embedding every undistortion function is moreover a total
function on the real plane by construction (no error or exception path exists in
its type). -/
theorem c6_nonconvergence_best_effort (k : CameraKind) (c : List ℝ) (tol : ℝ)
    (fuel : ℕ) (d : ℝ × ℝ) (h : NotConverged k c tol fuel d) :
    undistortNormalized k c tol fuel d = lastIterateResult k c fuel d := by
  cases k with
  | radtan => exact radtanSolve_of_stuck c tol d fuel d h
  | equidistant =>
    show equidistantUndistortN c tol fuel d = _
    rw [show equidistantUndistortN c tol fuel d
        = ((Real.tan (thetaSolve c tol (ptNorm d) fuel (ptNorm d)) / ptNorm d) * d.1,
           (Real.tan (thetaSolve c tol (ptNorm d) fuel (ptNorm d)) / ptNorm d) * d.2)
        from rfl]
    rw [thetaSolve_of_stuck c tol (ptNorm d) fuel (ptNorm d) h]
    rfl

/-- Witness for C6: Radtan with `k1 = 1`, a one-iteration budget and zero
tolerance at the distorted point `(1, 0)`, where the residual stays at 1. -/
theorem c6_nonconvergence_best_effort_witness :
    NotConverged CameraKind.radtan [1] 0 1 ((1:ℝ), (0:ℝ))
      ∧ undistortNormalized CameraKind.radtan [1] 0 1 ((1:ℝ), (0:ℝ))
        = lastIterateResult CameraKind.radtan [1] 1 ((1:ℝ), (0:ℝ)) := by
  have hnc : NotConverged CameraKind.radtan [1] 0 1 ((1:ℝ), (0:ℝ)) := by
    intro i hi
    have hi0 : i = 0 := by omega
    subst hi0
    rw [Function.iterate_zero_apply]
    norm_num [radtanResid, radtanForward, ptDist, listK]
  exact ⟨hnc, c6_nonconvergence_best_effort CameraKind.radtan [1] 0 1 ((1:ℝ), (0:ℝ)) hnc⟩

/-- C3: `createCamera` at `RadtanCamera` returns a non-null pointer owning a
Radtan instance, and at any (compilable) type outside the two variants it
returns null. -/
theorem c3_factory_type_safety (opts : CameraOptions) (intr : Vector4) (t : CppType)
    (hinst : createCameraInstantiates t = true)
    (hr : t ≠ CppType.radtanCameraT) (he : t ≠ CppType.equidistantCameraT) :
    (∃ cam, createCamera CppType.radtanCameraT opts intr = some cam
        ∧ cam.model = CameraKind.radtan)
      ∧ createCamera t opts intr = none := by
  refine ⟨⟨mkRadtanCamera opts intr, rfl, rfl⟩, ?_⟩
  cases t with
  | pinholeCameraT => simp [createCameraInstantiates, derivesFromPinholeCamera,
      constructibleCamera] at hinst
  | radtanCameraT => exact absurd rfl hr
  | equidistantCameraT => exact absurd rfl he
  | msceqfOptionsT => rfl
  | intT => rfl

/-- Witness for C3 at the options record type with concrete options and
intrinsics. -/
theorem c3_factory_type_safety_witness :
    createCameraInstantiates CppType.msceqfOptionsT = true
      ∧ createCamera CppType.msceqfOptionsT ⟨[], ⟨500, 500, 320, 240⟩, 640, 480⟩
          ⟨500, 500, 320, 240⟩ = none := by
  have h := c3_factory_type_safety ⟨[], ⟨500, 500, 320, 240⟩, 640, 480⟩
    ⟨500, 500, 320, 240⟩ CppType.msceqfOptionsT (by decide) (by decide) (by decide)
  exact ⟨by decide, h.2⟩

/-- C10: over all (compilable) instantiations, the factory's null branch is
decided by the inheritance test alone: `createCamera<T>` is null exactly when `T`
does not derive from `PinholeCamera`, and every constructible derived `T` yields
a non-null instance of the matching variant built from the options and
intrinsics. -/
theorem c10_factory_inheritance_check (opts : CameraOptions) (intr : Vector4)
    (t : CppType) (hinst : createCameraInstantiates t = true) :
    (createCamera t opts intr = none ↔ derivesFromPinholeCamera t = false)
      ∧ (derivesFromPinholeCamera t = true →
          ∃ cam, createCamera t opts intr = some cam
            ∧ some cam.model = modelOfCppType t
            ∧ cam.distortion_coefficients_ = opts.distortion_coefficients_
            ∧ cam.intrinsics_ = intr
            ∧ cam.width_ = opts.width_ ∧ cam.height_ = opts.height_) := by
  cases t with
  | pinholeCameraT => simp [createCameraInstantiates, derivesFromPinholeCamera,
      constructibleCamera] at hinst
  | radtanCameraT =>
    exact ⟨by simp [createCamera, derivesFromPinholeCamera, cppConstruct],
      fun _ => ⟨mkRadtanCamera opts intr, rfl, rfl, rfl, rfl, rfl, rfl⟩⟩
  | equidistantCameraT =>
    exact ⟨by simp [createCamera, derivesFromPinholeCamera, cppConstruct],
      fun _ => ⟨mkEquidistantCamera opts intr, rfl, rfl, rfl, rfl, rfl, rfl⟩⟩
  | msceqfOptionsT => exact ⟨⟨fun _ => rfl, fun _ => rfl⟩, fun h => absurd h (by decide)⟩
  | intT => exact ⟨⟨fun _ => rfl, fun _ => rfl⟩, fun h => absurd h (by decide)⟩

/-- Witness for C10 at the Radtan variant with concrete options and intrinsics. -/
theorem c10_factory_inheritance_check_witness :
    createCameraInstantiates CppType.radtanCameraT = true
      ∧ (createCamera CppType.radtanCameraT ⟨[1, 2], ⟨500, 500, 320, 240⟩, 640, 480⟩
            ⟨500, 500, 320, 240⟩ = none
          ↔ derivesFromPinholeCamera CppType.radtanCameraT = false) :=
  ⟨by decide,
    (c10_factory_inheritance_check ⟨[1, 2], ⟨500, 500, 320, 240⟩, 640, 480⟩
      ⟨500, 500, 320, 240⟩ CppType.radtanCameraT (by decide)).1⟩

/-- C5: on every camera and every batch of distorted pixel points, undistorting
with `normalize = false` yields the pixel-space pointwise-undistorted batch, and
undistorting with `normalize = true` yields exactly the `false` result with
`normalize` applied to each point. -/
theorem c5_undistort_normalize_composition (cam : PinholeCamera) (tol : ℝ) (fuel : ℕ)
    (uv : List (ℝ × ℝ)) :
    undistortCv cam tol fuel uv true
        = (undistortCv cam tol fuel uv false).map (normalizePt cam.intrinsics_)
      ∧ undistortCv cam tol fuel uv false
        = uv.map (pixelUndistortPt cam tol fuel) := by
  constructor <;> simp [undistortCv]

/-- C7: undistorting a batch of `N` points equals, elementwise, undistorting each
point alone as a singleton batch with the same flag. -/
theorem c7_batch_single_consistency (cam : PinholeCamera) (tol : ℝ) (fuel : ℕ)
    (flag : Bool) (uv : List (ℝ × ℝ)) (i : ℕ) (h : i < uv.length) :
    (undistortCv cam tol fuel uv flag)[i]?
      = (undistortCv cam tol fuel [uv.get ⟨i, h⟩] flag)[0]? := by
  have hmap : ∀ l : List (ℝ × ℝ), undistortCv cam tol fuel l flag
      = l.map (fun p => if flag
          then normalizePt cam.intrinsics_ (pixelUndistortPt cam tol fuel p)
          else pixelUndistortPt cam tol fuel p) := by
    intro l
    cases flag <;> simp [undistortCv, List.map_map]
  rw [hmap, hmap]
  simp [List.getElem?_map, List.getElem?_eq_getElem h, List.get_eq_getElem]

/-- Witness for C7 on a singleton batch with a concrete Radtan camera. -/
theorem c7_batch_single_consistency_witness :
    0 < ([((0:ℝ), (0:ℝ))] : List (ℝ × ℝ)).length
      ∧ (undistortCv ⟨CameraKind.radtan, [], ⟨1, 1, 0, 0⟩, 640, 480⟩ 1 1
            [((0:ℝ), (0:ℝ))] false)[0]?
        = (undistortCv ⟨CameraKind.radtan, [], ⟨1, 1, 0, 0⟩, 640, 480⟩ 1 1
            [([((0:ℝ), (0:ℝ))] : List (ℝ × ℝ)).get ⟨0, by norm_num⟩] false)[0]? :=
  ⟨by norm_num,
    c7_batch_single_consistency ⟨CameraKind.radtan, [], ⟨1, 1, 0, 0⟩, 640, 480⟩ 1 1
      false [((0:ℝ), (0:ℝ))] 0 (by norm_num)⟩

/-- C8: the Eigen-representation overload — convert to the image-point
representation, delegate to the canonical virtual implementation, convert back —
yields numerically identical results to the image-point overload on the same
logical points. -/
theorem c8_representation_equivalence (cam : PinholeCamera) (tol : ℝ) (fuel : ℕ)
    (uv : List EigenVector2) (flag : Bool) :
    (undistortEigen cam tol fuel uv flag).map eigenToCv
      = undistortCv cam tol fuel (uv.map eigenToCv) flag := by
  unfold undistortEigen
  rw [List.map_map]
  have h : eigenToCv ∘ cvToEigen = id := funext fun p => rfl
  rw [h, List.map_id]

/-- C9: `setIntrinsics` replaces exactly the 4-element intrinsics vector; the
distortion coefficients, image width and image height (and the model variant)
are untouched by it and by every other interface operation. -/
theorem c9_setIntrinsics_frame_conditions (cam : PinholeCamera) (v : Vector4) :
    (setIntrinsics cam v).intrinsics_ = v
      ∧ (setIntrinsics cam v).distortion_coefficients_ = cam.distortion_coefficients_
      ∧ (setIntrinsics cam v).width_ = cam.width_
      ∧ (setIntrinsics cam v).height_ = cam.height_
      ∧ (setIntrinsics cam v).model = cam.model
      ∧ ∀ op : CameraOp,
          (applyOp op cam).distortion_coefficients_ = cam.distortion_coefficients_
            ∧ (applyOp op cam).width_ = cam.width_
            ∧ (applyOp op cam).height_ = cam.height_ := by
  refine ⟨rfl, rfl, rfl, rfl, rfl, ?_⟩
  intro op
  cases op <;> exact ⟨rfl, rfl, rfl⟩

end MSCEqF
